import Mathlib

/-!
Verification of the StrategyQ calibrator core (`src/utils.py`).

The development shallowly embeds the two engines of the repository:

* the name-reconciliation engine (`mapping_indicators`, together with the
  parts of the Python standard library `difflib` it calls), and
* the archive-patching engine (`_patch_block`, `generate_sqb`,
  `build_ranges_jsons`, `batch_generate_sqb`).

Python dictionaries are embedded as association lists with
insertion-ordered, unique keys (`dictInsert` / `dictGet`), numeric
calibration values as rationals, zip archives as lists of entries
carrying a name, a compression method and a byte payload, and the
XML document inside the archive abstractly (the claims under study
never depend on the byte-level XML syntax, only on the Block elements'
attribute dictionaries).
-/

namespace StrategyQ

/-! ### Python dict as an insertion-ordered association list -/

/-- Lookup in a Python dict: first entry with the given key
(keys are unique in every dict this development builds). -/
def dictGet {α : Type} : List (String × α) → String → Option α
  | [], _ => none
  | p :: ps, k => if p.1 = k then some p.2 else dictGet ps k

/-- Python dict assignment `d[k] = v`: overwrite the value in place when
the key is present (keeping its position), append otherwise. -/
def dictInsert {α : Type} : List (String × α) → String → α → List (String × α)
  | [], k, v => [(k, v)]
  | p :: ps, k, v => if p.1 = k then (k, v) :: ps else p :: dictInsert ps k v

/-! ### difflib: SequenceMatcher.ratio and get_close_matches

`mapping_indicators` delegates its fuzzy pass to
`difflib.get_close_matches`, so that function (and the part of
`SequenceMatcher` it uses) is embedded here.  Strings are the character
lists of the Lean strings; scores are exact rationals `2*M/T` (the float
arithmetic of the source cannot round across the 0.30/0.60 cutoffs at the
string sizes involved).  The autojunk heuristic of `SequenceMatcher` is
omitted: it only activates when the second sequence has at least 200
characters, far beyond any indicator name. -/

/-- Length of the common prefix of two character lists. -/
def commonRun : List Char → List Char → Nat
  | a :: as, b :: bs => if a = b then commonRun as bs + 1 else 0
  | _, _ => 0

/-- Length of the diagonal run of pairwise-equal characters ending at
(and including) positions `i` of `a` and `j` of `b`. -/
def endRun (a b : List Char) (i j : Nat) : Nat :=
  commonRun ((a.take (i + 1)).reverse) ((b.take (j + 1)).reverse)

/-- All index pairs `(i, j)` with `i < la`, `j < lb`, in the scan order of
`SequenceMatcher.find_longest_match` (`i` outer, `j` inner, ascending). -/
def allPairs (la lb : Nat) : List (Nat × Nat) :=
  (List.range la).flatMap (fun i => (List.range lb).map (fun j => (i, j)))

/-- Embeds `find_longest_match` over the full windows of `a` and `b`, as
`(start_a, start_b, size)`.  With no junk characters the dict-based scan
of the source finds the maximal-size diagonal run whose end pair
`(i, j)` is lexicographically least (`bestsize` only ever updates on a
strictly larger run, scanning ends in lexicographic order), and the
junk-extension loops after the scan never fire. -/
def findLongestMatch (a b : List Char) : Nat × Nat × Nat :=
  let pairs := allPairs a.length b.length
  let best := pairs.foldl (fun acc p => max acc (endRun a b p.1 p.2)) 0
  if best = 0 then (0, 0, 0)
  else
    match pairs.find? (fun p => endRun a b p.1 p.2 == best) with
    | some (i, j) => (i + 1 - best, j + 1 - best, best)
    | none => (0, 0, 0)

/-- Total size of the matching blocks of `get_matching_blocks`: the
longest match splits both sequences, and the two sides are processed
recursively.  Recursion is on explicit fuel; every recursive call
strictly shrinks `a` (the found block has size at least 1), so
`a.length + 1` fuel always suffices. -/
def matchTotal : Nat → List Char → List Char → Nat
  | 0, _, _ => 0
  | fuel + 1, a, b =>
      match findLongestMatch a b with
      | (i, j, k) =>
          if k = 0 then 0
          else
            k + matchTotal fuel (a.take i) (b.take j)
              + matchTotal fuel (a.drop (i + k)) (b.drop (j + k))

/-- Total matching size `M` of `SequenceMatcher(None, x, word)`. -/
def matchSize (x word : String) : Nat :=
  matchTotal (x.data.length + 1) x.data word.data

/-- Embeds `SequenceMatcher(None, x, word).ratio() = 2*M/(len x + len word)`,
as an exact rational.  At the string sizes involved here the float
arithmetic of the source computes this value and the cutoff comparisons
exactly enough that the exact-rational semantics agree (float noise is
far below the spacing `1/(d1*d2)` between distinct scores).
Division by zero (both strings empty) yields 0 in `ℚ`; the source would
raise there, and the repository never compares empty-by-empty. -/
def simScore (x word : String) : ℚ :=
  2 * (matchSize x word : ℚ) /
    (((x.data.length + word.data.length : Nat) : ℚ))

/-- The test `ratio() >= cutoff` with `cutoff = cnum/cden`, decided exactly by
cross-multiplication over `Nat` (kernel-computable, unlike `ℚ`
division). -/
def ratioGe (x word : String) (cnum cden : Nat) : Bool :=
  cnum * (x.data.length + word.data.length) ≤ 2 * matchSize x word * cden

/-- Python code-point comparison of strings (`heapq.nlargest` compares
the `(score, string)` tuples, falling back to the string when scores
tie). -/
def charListLt : List Char → List Char → Bool
  | [], [] => false
  | [], _ :: _ => true
  | _ :: _, [] => false
  | a :: as, b :: bs =>
      if a.val < b.val then true
      else if b.val < a.val then false
      else charListLt as bs

/-- A scored fuzzy candidate: score numerator, score denominator, and the
candidate string (the score is `num/den`). -/
structure Scored where
  num : Nat
  den : Nat
  str : String
  deriving DecidableEq

/-- Strict Python `>` on `(score, string)` tuples, with the score
comparison done by cross-multiplication. -/
def pairGt (p q : Scored) : Bool :=
  if q.num * p.den < p.num * q.den then true
  else if p.num * q.den < q.num * p.den then false
  else charListLt q.str.data p.str.data

def insertDesc (p : Scored) : List Scored → List Scored
  | [] => [p]
  | q :: qs => if pairGt p q then p :: q :: qs else q :: insertDesc p qs

/-- Embeds `sorted(·, reverse=True)`: stable descending insertion sort. -/
def sortDesc (l : List Scored) : List Scored :=
  l.foldr insertDesc []

/-- Embeds `difflib.get_close_matches(word, possibilities, n, cutoff)` with
`cutoff = cnum/cden`.
The source filters `possibilities` by
`real_quick_ratio() >= cutoff and quick_ratio() >= cutoff and
ratio() >= cutoff`; the two quick ratios are upper bounds of `ratio()`,
so the filtered set is exactly the `ratio() >= cutoff` one.
`heapq.nlargest(n, result)` is, per its documentation, equivalent to
`sorted(result, reverse=True)[:n]` on the `(score, string)` pairs. -/
def get_close_matches (word : String) (possibilities : List String)
    (n : Nat) (cnum cden : Nat) : List String :=
  let scored := (possibilities.filter
      (fun x => ratioGe x word cnum cden)).map
      (fun x => Scored.mk (2 * matchSize x word)
        (x.data.length + word.data.length) x)
  ((sortDesc scored).take n).map Scored.str

/-! ### Name normalization (`mapping_indicators.normalize`) -/

/-- One character survives `re.sub(r"[^a-z0-9]", "", ·)`. -/
def isLowerAlnum (c : Char) : Bool :=
  (('a' ≤ c) && (c ≤ 'z')) || (('0' ≤ c) && (c ≤ '9'))

/-- Embeds `normalize(s)`: lower-case, keep only ASCII letters and digits.
The `strip()` of the source is subsumed by the character filter
(whitespace is never in `[a-z0-9]`).  Lower-casing is the ASCII case map,
matching `str.lower` on the ASCII identifiers this repository handles. -/
def normalize (s : String) : String :=
  String.mk (((s.data.map Char.toLower).filter isLowerAlnum))

/-! ### Name reconciliation (`mapping_indicators`, src/utils.py 86-149) -/

/-- ASCII lower-casing of a whole string (`str.lower` on the ASCII
identifiers this repository handles). -/
def lowerStr (s : String) : String :=
  String.mk (s.data.map Char.toLower)

/-- Python `a.startswith(p)` on character lists (`String.startsWith` of the
library is not kernel-computable, so the list form is used). -/
def startsWithCL : List Char → List Char → Bool
  | _, [] => true
  | [], _ :: _ => false
  | a :: as, p :: ps => a = p && startsWithCL as ps

/-- Python `s[k:]`: drop the first `k` characters. -/
def dropCL (s : String) (k : Nat) : String :=
  String.mk (s.data.drop k)

/-- The list `mt5_tuples`: for each internal name, the pair
(normalized key with the leading two-letter `Sq` marker stripped,
original name).  `ln[2:]` drops two characters. -/
def mt5Tuples (mt5_indicators : List String) : List (String × String) :=
  mt5_indicators.map (fun ln =>
    (normalize (if startsWithCL (lowerStr ln).data "sq".data
        then dropCL ln 2 else ln), ln))

/-- The index `norm_to_mt5 = dict(mt5_tuples)`: normalized internal key to original
name, later pairs overwriting earlier ones with the same key. -/
def normToMt5 (mt5_indicators : List String) : List (String × String) :=
  (mt5Tuples mt5_indicators).foldl (fun d p => dictInsert d p.1 p.2) []

/-- The list `all_norm_keys = list(norm_to_mt5.keys())` (first-insertion order). -/
def allNormKeys (mt5_indicators : List String) : List String :=
  (normToMt5 mt5_indicators).map Prod.fst

/-- The `RAW_MANUAL` alias literal of the source, in source order. -/
def RAW_MANUAL : List (String × String) :=
  [("WilliamsPR", "SqWpr"),
   ("LinearRegression", "LinReg"),
   ("SMA", "Custom Moving Average"),
   ("SMMA", "null"),
   ("EMA", "null"),
   ("LWMA", "null"),
   ("CRSI", "ConnorsRSI")]

/-- The alias dict `MANUAL`, with `normalize` applied to keys and values. -/
def MANUAL : List (String × String) :=
  (RAW_MANUAL.map (fun p => (normalize p.1, normalize p.2))).foldl
    (fun d p => dictInsert d p.1 p.2) []

/-- Python falsiness of `match_original`: `None` and `""` are falsy. -/
def isFalsy : Option String → Bool
  | none => true
  | some s => s.data.isEmpty

/-- The body of the `for ind in sqx_indicators` loop of
`mapping_indicators` (lines 126-143): exact lookup, then the manual
alias lookup whenever the normalized name is an alias key (note the
source does not gate this on the exact lookup having failed), then the
two fuzzy passes when the value so far is falsy.
`norm_to_mt5[second[0]]` in the source always succeeds, because the
fuzzy candidates are drawn from `all_norm_keys`; its embedding
`dictGet d s` is `some`-valued at every reachable call. -/
def resolveOne (mt5_indicators : List String) (ind : String) : Option String :=
  let nInd := normalize ind
  let d := normToMt5 mt5_indicators
  let exact0 := dictGet d nInd
  let afterAlias :=
    match dictGet MANUAL nInd with
    | some aliasNorm => dictGet d aliasNorm
    | none => exact0
  if isFalsy afterAlias then
    match get_close_matches nInd (allNormKeys mt5_indicators) 4 30 100 with
    | [] => afterAlias
    | c :: cs =>
        match get_close_matches nInd (c :: cs) 1 60 100 with
        | [] => afterAlias
        | s :: _ => dictGet d s
  else afterAlias

/-- Embeds `mapping_indicators(sqx_indicators, mt5_indicators, output_file)`
without the side effect of lines 146-149, which only serialize the
returned dict to `output_file`. -/
def mapping_indicators (sqx_indicators mt5_indicators : List String) :
    List (String × Option String) :=
  sqx_indicators.foldl
    (fun m ind => dictInsert m ind (resolveOne mt5_indicators ind)) []

/-! ### XML Block elements and `_patch_block` -/

/-- An XML element as seen by the patcher: its attribute dictionary
(`xml.etree` stores attributes as an insertion-ordered dict with unique
keys).  Child structure is irrelevant to `_patch_block`. -/
structure Element where
  attrib : List (String × String)
  deriving DecidableEq

/-- Python `element.get(k, d)`. -/
def Element.elemGet (e : Element) (k d : String) : String :=
  (dictGet e.attrib k).getD d

/-- Python `element.get(k)` (default `None`). -/
def Element.elemGetOpt (e : Element) (k : String) : Option String :=
  dictGet e.attrib k

/-- Python `element.set(k, v)`. -/
def Element.elemSet (e : Element) (k v : String) : Element :=
  ⟨dictInsert e.attrib k v⟩

/-- Embeds `_patch_block(block, ranges)` (src/utils.py lines 220-257).

* Range values are rationals and `fstr` abstracts Python's `str(float)`
  rendering (the claims never depend on the decimal syntax).
* `if not rng` in the source is `rng is None` here: the table's values are
  3-tuples, and a tuple is always truthy in Python.
* The block of lines 243-245 and 252-257 reads the use/enabled/selected
  flag solely for a `log.debug` call and has no effect on the tree, so it
  is not part of the embedding.
* Under the `startswith("Indicators.")` guard, `key.split(".", 1)[1]`
  is exactly the key with the 11-character marker removed, because the
  first dot of the key is then the dot of the marker. -/
def patch_block (fstr : ℚ → String) (ranges : List (String × (ℚ × ℚ × ℚ)))
    (block : Element) : Element :=
  let key := block.elemGet "key" ""
  if startsWithCL key.data "Indicators.".data then
    let name := dropCL key ("Indicators.".data.length)
    match dictGet ranges name with
    | none => block
    | some (lo, hi, st) =>
        ((block.elemSet "indicatorMin" (fstr lo)).elemSet
            "indicatorMax" (fstr hi)).elemSet "indicatorStep" (fstr st)
  else block

/-! ### Range-table builder (`build_ranges_jsons`, src/utils.py 155-207) -/

/-- One raw calibration record of a timeframe's `datos` list
(`{"indicador": ..., "minimo": ..., "maximo": ..., "paso": ...}`).
Its numeric fields are modelled as exact rationals. -/
structure CalRecord where
  indicador : String
  minimo : ℚ
  maximo : ℚ
  paso : ℚ
  deriving DecidableEq

/-- Python `min` over a nonempty list (never called on `[]` here; the
`[]` value is arbitrary). -/
def listMin : List ℚ → ℚ
  | [] => 0
  | x :: xs => xs.foldl min x

/-- Python `max` over a nonempty list (never called on `[]` here). -/
def listMax : List ℚ → ℚ
  | [] => 0
  | x :: xs => xs.foldl max x

/-- The per-timeframe loop body of `build_ranges_jsons`
(src/utils.py lines 183-201), producing one timeframe's range table.

* Grouping `tf["datos"]` with `setdefault(...).append(...)` gives, for
  each internal code, exactly the order-preserving sublist of records
  with that code, so `by_code.get(internal)` is embedded as a filter of
  `datos`; the group exists iff that filter is nonempty
  (`if not registros: continue`).
* A `None` mapping value (unresolved external name) never finds a group:
  `by_code` is keyed by the strings of the records, so in the source
  `by_code.get(None)` is `None` — the `none` branch.
* `roundD` abstracts `round(·, decimals)` on Python floats.
-/
def rangesStep (roundD : ℚ → ℚ) (datos : List CalRecord)
    (ranges : List (String × (ℚ × ℚ × ℚ))) (p : String × Option String) :
    List (String × (ℚ × ℚ × ℚ)) :=
  match p.2 with
  | none => ranges
  | some internal =>
      let registros := datos.filter (fun r => r.indicador == internal)
      if registros.isEmpty then ranges
      else
        dictInsert ranges p.1
          (roundD (listMin (registros.map CalRecord.minimo)),
           roundD (listMax (registros.map CalRecord.maximo)),
           roundD (listMin (registros.map CalRecord.paso)))

/-- One timeframe's range table: the `for ext, internal in
mapping.items()` loop of `build_ranges_jsons`, starting from the empty
`ranges` dict. -/
def buildRangesTF (roundD : ℚ → ℚ) (mapping : List (String × Option String))
    (datos : List CalRecord) : List (String × (ℚ × ℚ × ℚ)) :=
  mapping.foldl (rangesStep roundD datos) []

/-! ### Archive patching (`generate_sqb`, src/utils.py 263-287) -/

/-- One zip entry: name, compression method and payload bytes.
`zout.writestr(item, data)` writes under `item`'s name and compression
method, so both survive `generate_sqb` unchanged by construction. -/
structure ZipEntry where
  filename : String
  compressType : Nat
  data : List Nat
  deriving DecidableEq

/-- The entry loop of `generate_sqb` (lines 276-285): every entry is
read; the entry named `xml_inside` has its bytes transformed (which can
raise, e.g. on malformed XML); every other entry's bytes are written
back unchanged.  An exception aborts the loop at the first failing
entry, like the Python `for`. -/
def zipRewrite (xmlInside : String)
    (patchBytes : List Nat → Except String (List Nat)) :
    List ZipEntry → Except String (List ZipEntry)
  | [] => .ok []
  | item :: rest =>
      match (if item.filename = xmlInside
              then patchBytes item.data else .ok item.data) with
      | .error e => .error e
      | .ok bytes =>
          match zipRewrite xmlInside patchBytes rest with
          | .error e => .error e
          | .ok outs =>
              .ok (ZipEntry.mk item.filename item.compressType bytes :: outs)

/-- Lines 279-283 of `generate_sqb`: parse the designated document,
patch every Block, re-serialize.  The XML byte syntax is abstracted:
`parseDoc` stands for `ET.fromstring` (fallible on malformed bytes),
`mapBlocks` for the traversal `root.findall(".//Block")` with the
in-place `_patch_block` mutation of each Block, and `serialize` for
`ET.tostring`. -/
def patchDocBytes (Doc : Type) (parseDoc : List Nat → Except String Doc)
    (mapBlocks : (Element → Element) → Doc → Doc)
    (serialize : Doc → List Nat) (fstr : ℚ → String)
    (ranges : List (String × (ℚ × ℚ × ℚ)))
    (data : List Nat) : Except String (List Nat) :=
  (parseDoc data).map
    (fun doc => serialize (mapBlocks (patch_block fstr ranges) doc))

/-- Embeds `generate_sqb(template, output, ranges, xml_inside)`: the produced
output archive (or the propagated exception). -/
def generate_sqb (Doc : Type) (parseDoc : List Nat → Except String Doc)
    (mapBlocks : (Element → Element) → Doc → Doc)
    (serialize : Doc → List Nat) (fstr : ℚ → String)
    (template : List ZipEntry) (xmlInside : String)
    (ranges : List (String × (ℚ × ℚ × ℚ))) : Except String (List ZipEntry) :=
  zipRewrite xmlInside
    (patchDocBytes Doc parseDoc mapBlocks serialize fstr ranges) template

/-! ### Batch orchestrator (`batch_generate_sqb`, src/utils.py 293-319) -/

/-- Python `stem.split("_")[-1]`: the suffix after the last underscore (the
whole stem when it has none). -/
def lastSplitUnderscore (stem : String) : String :=
  String.mk ((stem.data.reverse.takeWhile (fun c => c != '_')).reverse)

/-- The body of the `for jf in json_files` loop (lines 314-319): derive
the timeframe name from the file stem, load the ranges JSON (fallible —
`jsonParse` abstracts `json.loads` on the file's text), generate the
archive, name it `{template_stem}_{activo}_{tf_name}.sqb`. -/
def runTimeframe (Doc : Type) (parseDoc : List Nat → Except String Doc)
    (mapBlocks : (Element → Element) → Doc → Doc)
    (serialize : Doc → List Nat) (fstr : ℚ → String)
    (jsonParse : String → Except String (List (String × (ℚ × ℚ × ℚ))))
    (template : List ZipEntry) (xmlInside templateStem activo : String)
    (jf : String × String) : Except String (String × List ZipEntry) :=
  match jsonParse jf.2 with
  | .error e => .error e
  | .ok ranges =>
      match generate_sqb Doc parseDoc mapBlocks serialize fstr
          template xmlInside ranges with
      | .error e => .error e
      | .ok archive =>
          .ok (templateStem ++ "_" ++ activo ++ "_" ++
            lastSplitUnderscore jf.1 ++ ".sqb", archive)

/-- The timeframe loop of `batch_generate_sqb`: archives accumulate in
list order until the first raised exception, which aborts the loop
(the source has no try/except around `generate_sqb`); the pair returns
the archives produced before the failure and the propagated exception,
if any. -/
def batchLoop (step : String × String → Except String (String × List ZipEntry)) :
    List (String × String) → List (String × List ZipEntry) × Option String
  | [] => ([], none)
  | jf :: rest =>
      match step jf with
      | .error e => ([], some e)
      | .ok out =>
          let r := batchLoop step rest
          (out :: r.1, r.2)

/-- Embeds `batch_generate_sqb(ranges_dir, template_sbq, activo, ...)`.
`jsonFiles` is the sorted `(stem, file text)` list of
`sorted(ranges_dir.glob("*.json"))`; an empty directory raises
`FileNotFoundError` before any archive is attempted (lines 307-309). -/
def batch_generate_sqb (Doc : Type) (parseDoc : List Nat → Except String Doc)
    (mapBlocks : (Element → Element) → Doc → Doc)
    (serialize : Doc → List Nat) (fstr : ℚ → String)
    (jsonParse : String → Except String (List (String × (ℚ × ℚ × ℚ))))
    (template : List ZipEntry) (xmlInside templateStem activo : String)
    (jsonFiles : List (String × String)) :
    List (String × List ZipEntry) × Option String :=
  if jsonFiles.isEmpty then ([], some "FileNotFoundError: No hay JSON de rangos")
  else
    batchLoop
      (runTimeframe Doc parseDoc mapBlocks serialize fstr jsonParse
        template xmlInside templateStem activo) jsonFiles

/-! ### Helper lemmas -/

theorem dictGet_dictInsert {α : Type} (d : List (String × α)) (k : String) (v : α)
    (k' : String) :
    dictGet (dictInsert d k v) k' = if k' = k then some v else dictGet d k' := by
  induction d with
  | nil =>
      by_cases h : k' = k
      · simp [dictInsert, dictGet, h]
      · simp [dictInsert, dictGet, h, Ne.symm h]
  | cons p ps ih =>
      by_cases hpk : p.1 = k
      · by_cases h : k' = k
        · simp [dictInsert, dictGet, hpk, h]
        · have hp : ¬ p.1 = k' := by rw [hpk]; exact Ne.symm h
          simp [dictInsert, dictGet, hpk, h, Ne.symm h, hp]
      · by_cases h : p.1 = k'
        · have hk : ¬ k' = k := fun he => hpk (h.trans he)
          simp [dictInsert, dictGet, hpk, h, hk]
        · simp [dictInsert, dictGet, hpk, h, ih]

theorem dictGet_isSome_iff_mem_keys {α : Type} (d : List (String × α)) (k : String) :
    (dictGet d k).isSome ↔ k ∈ d.map Prod.fst := by
  induction d with
  | nil => simp [dictGet]
  | cons p ps ih =>
      by_cases h : p.1 = k
      · simp [dictGet, h]
      · simp [dictGet, h, ih, Ne.symm h]

theorem dictGet_mem {α : Type} :
    ∀ (d : List (String × α)) (k : String) (v : α),
      dictGet d k = some v → (k, v) ∈ d
  | [], k, v, h => by simp [dictGet] at h
  | p :: ps, k, v, h => by
      by_cases hpk : p.1 = k
      · rw [dictGet, if_pos hpk] at h
        cases p
        cases hpk
        cases Option.some.inj h
        exact List.mem_cons_self _ _
      · rw [dictGet, if_neg hpk] at h
        exact List.mem_cons_of_mem _ (dictGet_mem ps k v h)

/-- Keys of `dictInsert`: unchanged when the key was present, the key is
appended otherwise. -/
theorem keys_dictInsert {α : Type} (d : List (String × α)) (k : String) (v : α) :
    (dictInsert d k v).map Prod.fst =
      if k ∈ d.map Prod.fst then d.map Prod.fst else d.map Prod.fst ++ [k] := by
  induction d with
  | nil => simp [dictInsert]
  | cons p ps ih =>
      by_cases hpk : p.1 = k
      · simp [dictInsert, hpk]
      · by_cases hmem : k ∈ ps.map Prod.fst <;>
          simp [dictInsert, hpk, ih, hmem, Ne.symm hpk]

/-- A successful lookup in a dict built by folding `dictInsert` over a pair
list comes either from one of the folded pairs or from the accumulator. -/
theorem dictGet_foldl_insert_mem {α : Type} :
    ∀ (pairs : List (String × α)) (acc : List (String × α)) (k : String) (v : α),
      dictGet (pairs.foldl (fun d p => dictInsert d p.1 p.2) acc) k = some v →
        (k, v) ∈ pairs ∨ dictGet acc k = some v
  | [], acc, k, v, h => .inr h
  | q :: rest, acc, k, v, h => by
      rcases dictGet_foldl_insert_mem rest (dictInsert acc q.1 q.2) k v h with h' | h'
      · exact .inl (List.mem_cons_of_mem _ h')
      · rw [dictGet_dictInsert] at h'
        by_cases hk : k = q.1
        · left
          cases q
          cases hk
          rw [if_pos rfl] at h'
          cases Option.some.inj h'
          exact List.mem_cons_self _ _
        · rw [if_neg hk] at h'
          exact .inr h'

theorem elemGetOpt_elemSet (e : Element) (k v k' : String) :
    (e.elemSet k v).elemGetOpt k' = if k' = k then some v else e.elemGetOpt k' := by
  simp [Element.elemSet, Element.elemGetOpt, dictGet_dictInsert]

/-! ### Claim theorems -/

/-- C2: for every Block whose key carries the `Indicators.` marker:
a hit of its external name (the key with the marker stripped) in the
range table sets exactly the three attributes `indicatorMin`,
`indicatorMax`, `indicatorStep` to the rendered triple, leaving every
other attribute (in particular any use/enabled/selected flag, which the
source reads only for logging) unchanged; a miss leaves the element
entirely unchanged, pre-existing range attributes included. -/
theorem c2_block_patched_exactly (fstr : ℚ → String)
    (ranges : List (String × (ℚ × ℚ × ℚ))) (block : Element)
    (hkey : startsWithCL (block.elemGet "key" "").data "Indicators.".data = true) :
    (∀ lo hi st,
      dictGet ranges (dropCL (block.elemGet "key" "") "Indicators.".data.length)
          = some (lo, hi, st) →
        (patch_block fstr ranges block).elemGetOpt "indicatorMin" = some (fstr lo) ∧
        (patch_block fstr ranges block).elemGetOpt "indicatorMax" = some (fstr hi) ∧
        (patch_block fstr ranges block).elemGetOpt "indicatorStep" = some (fstr st) ∧
        ∀ k, k ≠ "indicatorMin" → k ≠ "indicatorMax" → k ≠ "indicatorStep" →
          (patch_block fstr ranges block).elemGetOpt k = block.elemGetOpt k) ∧
    (dictGet ranges (dropCL (block.elemGet "key" "") "Indicators.".data.length)
        = none →
      patch_block fstr ranges block = block) := by
  constructor
  · intro lo hi st hlk
    rw [show ("Indicators.".data.length) = 11 from rfl] at hlk
    have hpb : patch_block fstr ranges block =
        ((block.elemSet "indicatorMin" (fstr lo)).elemSet "indicatorMax"
          (fstr hi)).elemSet "indicatorStep" (fstr st) := by
      simp [patch_block, hkey, hlk]
    refine ⟨?_, ?_, ?_, ?_⟩
    · rw [hpb]; simp [elemGetOpt_elemSet]
    · rw [hpb]; simp [elemGetOpt_elemSet]
    · rw [hpb]; simp [elemGetOpt_elemSet]
    · intro k h1 h2 h3
      rw [hpb]; simp [elemGetOpt_elemSet, h1, h2, h3]
  · intro hlk
    rw [show ("Indicators.".data.length) = 11 from rfl] at hlk
    simp [patch_block, hkey, hlk]

/-- Witness for C2: a concrete disabled Block with the `Indicators.ADX`
key and a stale `indicatorMin` gets the new range values while its
`use` flag survives untouched. -/
theorem c2_block_patched_exactly_witness :
    (patch_block (fun _ => "rng") [("ADX", (5, 50, 1))]
        ⟨[("key", "Indicators.ADX"), ("use", "false"),
          ("indicatorMin", "99")]⟩).elemGetOpt "indicatorMin" = some "rng" ∧
    (patch_block (fun _ => "rng") [("ADX", (5, 50, 1))]
        ⟨[("key", "Indicators.ADX"), ("use", "false"),
          ("indicatorMin", "99")]⟩).elemGetOpt "use" = some "false" :=
  ⟨((c2_block_patched_exactly (fun _ => "rng") [("ADX", (5, 50, 1))]
      ⟨[("key", "Indicators.ADX"), ("use", "false"), ("indicatorMin", "99")]⟩
      (by decide)).1 5 50 1 (by decide)).1,
   (((c2_block_patched_exactly (fun _ => "rng") [("ADX", (5, 50, 1))]
      ⟨[("key", "Indicators.ADX"), ("use", "false"), ("indicatorMin", "99")]⟩
      (by decide)).1 5 50 1 (by decide)).2.2.2 "use" (by decide) (by decide)
      (by decide)).trans (by decide)⟩

/-- C8 counterexample: a Block tagged as a stop/limit-range block
(key `StopLimit.PriceRange`) is NOT a mutation candidate even though the
range table holds a matching range (under both the stripped and the full
key): the patcher returns it byte-for-byte unchanged. -/
theorem c8_counterexample :
    patch_block (fun _ => "rng2")
        [("PriceRange", (1, 2, 3)), ("StopLimit.PriceRange", (1, 2, 3))]
        ⟨[("key", "StopLimit.PriceRange"), ("indicatorMin", "0")]⟩ =
      ⟨[("key", "StopLimit.PriceRange"), ("indicatorMin", "0")]⟩ := by decide

/-- C8 amended: the only category of Block that is a candidate for range
mutation is the one whose key starts with the `Indicators.` marker; every
Block of any other category — stop/limit-range blocks included — passes
through untouched. -/
theorem c8_amended_other_blocks_untouched (fstr : ℚ → String)
    (ranges : List (String × (ℚ × ℚ × ℚ))) (block : Element)
    (h : startsWithCL (block.elemGet "key" "").data "Indicators.".data = false) :
    patch_block fstr ranges block = block := by
  simp [patch_block, h]

/-- Witness for the amended C8 at a concrete stop-loss Block. -/
theorem c8_amended_other_blocks_untouched_witness :
    patch_block (fun _ => "z") [("X", (1, 2, 3))] ⟨[("key", "StopLoss.X")]⟩ =
      ⟨[("key", "StopLoss.X")]⟩ :=
  c8_amended_other_blocks_untouched (fun _ => "z") [("X", (1, 2, 3))]
    ⟨[("key", "StopLoss.X")]⟩ (by decide)

/-- Every successful `zipRewrite` run preserves the entry count and,
position by position, the entry name and compression method; entries not
named `xmlInside` also keep their exact bytes. -/
theorem zipRewrite_ok (xmlInside : String)
    (patchBytes : List Nat → Except String (List Nat)) :
    ∀ (template out : List ZipEntry),
      zipRewrite xmlInside patchBytes template = .ok out →
        out.length = template.length ∧
        ∀ (i : Nat) (e : ZipEntry), template[i]? = some e →
          ∃ e' : ZipEntry, out[i]? = some e' ∧ e'.filename = e.filename ∧
            e'.compressType = e.compressType ∧
            (e.filename ≠ xmlInside → e'.data = e.data)
  | [], out, h => by
      rw [zipRewrite] at h
      cases h
      exact ⟨rfl, by intro i e he; simp at he⟩
  | item :: rest, out, h => by
      rw [zipRewrite] at h
      cases hd : (if item.filename = xmlInside then patchBytes item.data
          else Except.ok item.data) with
      | error err => rw [hd] at h; simp at h
      | ok bytes =>
          rw [hd] at h
          cases hr : zipRewrite xmlInside patchBytes rest with
          | error err => rw [hr] at h; simp at h
          | ok outs =>
              rw [hr] at h
              simp only [Except.ok.injEq] at h
              subst h
              obtain ⟨ih1, ih2⟩ := zipRewrite_ok xmlInside patchBytes rest outs hr
              refine ⟨by simp [ih1], ?_⟩
              intro i e he
              match i with
              | 0 =>
                  rw [List.getElem?_cons_zero] at he
                  cases Option.some.inj he
                  refine ⟨ZipEntry.mk item.filename item.compressType bytes,
                    by simp, rfl, rfl, ?_⟩
                  intro hne
                  rw [if_neg hne] at hd
                  exact (Except.ok.inj hd).symm
              | Nat.succ n =>
                  rw [List.getElem?_cons_succ] at he
                  obtain ⟨e', he', h1, h2, h3⟩ := ih2 n e he
                  exact ⟨e', by simpa using he', h1, h2, h3⟩

/-- C1: whenever the patcher succeeds, the output archive has exactly the
template's entries — same count, and at every position the same entry
name and compression method — and every entry other than the designated
internal XML document keeps its template bytes unchanged. -/
theorem c1_archive_roundtrip (Doc : Type)
    (parseDoc : List Nat → Except String Doc)
    (mapBlocks : (Element → Element) → Doc → Doc) (serialize : Doc → List Nat)
    (fstr : ℚ → String) (template : List ZipEntry) (xmlInside : String)
    (ranges : List (String × (ℚ × ℚ × ℚ))) (out : List ZipEntry)
    (h : generate_sqb Doc parseDoc mapBlocks serialize fstr template
        xmlInside ranges = .ok out) :
    out.length = template.length ∧
    ∀ (i : Nat) (e : ZipEntry), template[i]? = some e →
      ∃ e' : ZipEntry, out[i]? = some e' ∧ e'.filename = e.filename ∧
        e'.compressType = e.compressType ∧
        (e.filename ≠ xmlInside → e'.data = e.data) :=
  zipRewrite_ok xmlInside _ template out h

/-- Witness for C1: a two-entry template whose non-document entry
(`Strategy.xml`, stored method, bytes `[2, 3]`) survives byte-identical
while `config.xml` is rewritten. -/
theorem c1_archive_roundtrip_witness :
    ∃ e' : ZipEntry, ([ZipEntry.mk "config.xml" 8 [7],
        ZipEntry.mk "Strategy.xml" 0 [2, 3]] : List ZipEntry)[1]? = some e' ∧
      e'.filename = "Strategy.xml" ∧ e'.compressType = 0 ∧
      ("Strategy.xml" ≠ "config.xml" → e'.data = [2, 3]) :=
  (c1_archive_roundtrip Unit (fun _ => .ok ()) (fun _ d => d) (fun _ => [7])
    (fun _ => "")
    [ZipEntry.mk "config.xml" 8 [1], ZipEntry.mk "Strategy.xml" 0 [2, 3]]
    "config.xml" []
    [ZipEntry.mk "config.xml" 8 [7], ZipEntry.mk "Strategy.xml" 0 [2, 3]]
    rfl).2 1 (ZipEntry.mk "Strategy.xml" 0 [2, 3]) rfl

/-- C6 counterexample: two timeframes, the first with a malformed ranges
JSON.  The batch returns no archive at all and the propagated exception —
in particular the second timeframe's archive is not generated — even
though the second timeframe alone generates perfectly well (second
conjunct).  So a failure in one timeframe does abort the others. -/
theorem c6_counterexample :
    batch_generate_sqb Unit (fun _ => .ok ()) (fun _ d => d) (fun _ => [5])
        (fun _ => "s")
        (fun s => if s = "ok" then .ok [] else .error "Expecting value")
        [ZipEntry.mk "config.xml" 8 [0]] "config.xml" "BlockSettings" "NDX"
        [("NDX_M1", "bad"), ("NDX_M5", "ok")] =
      ([], some "Expecting value") ∧
    runTimeframe Unit (fun _ => .ok ()) (fun _ d => d) (fun _ => [5])
        (fun _ => "s")
        (fun s => if s = "ok" then .ok [] else .error "Expecting value")
        [ZipEntry.mk "config.xml" 8 [0]] "config.xml" "BlockSettings" "NDX"
        ("NDX_M5", "ok") =
      .ok ("BlockSettings_NDX_M5.sqb", [ZipEntry.mk "config.xml" 8 [5]]) :=
  ⟨rfl, rfl⟩

/-- C6 amended: the timeframe loop is fail-fast.  When every timeframe
before `f` generates successfully and `f` raises, exactly the timeframes
before `f` produce archives (one each, in order) and the exception is
propagated; the timeframes after `f` are not processed. -/
theorem c6_amended_failure_aborts_rest
    (step : String × String → Except String (String × List ZipEntry))
    (pre post : List (String × String)) (f : String × String)
    (h1 : ∀ g ∈ pre, ∃ o, step g = .ok o)
    (h2 : ∃ err, step f = .error err) :
    (batchLoop step (pre ++ f :: post)).1.length = pre.length ∧
    (batchLoop step (pre ++ f :: post)).2.isSome := by
  induction pre with
  | nil =>
      obtain ⟨err, herr⟩ := h2
      simp [batchLoop, herr]
  | cons g pre' ih =>
      obtain ⟨o, ho⟩ := h1 g (List.mem_cons_self g pre')
      have ih' := ih (fun g' hg' => h1 g' (List.mem_cons_of_mem _ hg'))
      simp only [List.cons_append, batchLoop, ho]
      simpa using ih'

/-- Witness for the amended C6: the middle of three timeframes fails;
exactly one archive (the first) is produced and the error is reported. -/
theorem c6_amended_failure_aborts_rest_witness :
    (batchLoop
        (fun jf => if jf.2 = "ok" then .ok (jf.1, ([] : List ZipEntry))
          else .error "bad")
        [("a", "ok"), ("b", "bad"), ("c", "ok")]).1.length = 1 ∧
    (batchLoop
        (fun jf => if jf.2 = "ok" then .ok (jf.1, ([] : List ZipEntry))
          else .error "bad")
        [("a", "ok"), ("b", "bad"), ("c", "ok")]).2.isSome :=
  c6_amended_failure_aborts_rest
    (fun jf => if jf.2 = "ok" then .ok (jf.1, ([] : List ZipEntry))
      else .error "bad")
    [("a", "ok")] [("c", "ok")] ("b", "bad")
    (by intro g hg; simp at hg; subst hg; exact ⟨("a", []), rfl⟩)
    ⟨"bad", rfl⟩

theorem mem_keys_dictInsert {α : Type} (d : List (String × α)) (k : String)
    (v : α) (k' : String) :
    k' ∈ (dictInsert d k v).map Prod.fst ↔ k' ∈ d.map Prod.fst ∨ k' = k := by
  rw [keys_dictInsert]
  by_cases h : k ∈ d.map Prod.fst
  · rw [if_pos h]
    constructor
    · exact .inl
    · rintro (hm | rfl)
      · exact hm
      · exact h
  · rw [if_neg h]
    simp

theorem nodup_keys_dictInsert {α : Type} (d : List (String × α)) (k : String)
    (v : α) (h : (d.map Prod.fst).Nodup) :
    ((dictInsert d k v).map Prod.fst).Nodup := by
  rw [keys_dictInsert]
  by_cases hk : k ∈ d.map Prod.fst
  · rw [if_pos hk]; exact h
  · rw [if_neg hk]
    exact List.Nodup.append h (List.nodup_singleton k)
      (List.disjoint_singleton.mpr hk)

/-- Membership in the keys of the reconciliation fold. -/
theorem mem_keys_mapping_fold (mt5 : List String) :
    ∀ (sqx : List String) (acc : List (String × Option String)) (k : String),
      k ∈ ((sqx.foldl
          (fun m ind => dictInsert m ind (resolveOne mt5 ind)) acc).map
            Prod.fst) ↔
        k ∈ acc.map Prod.fst ∨ k ∈ sqx
  | [], acc, k => by simp
  | i :: rest, acc, k => by
      rw [List.foldl_cons,
        mem_keys_mapping_fold mt5 rest (dictInsert acc i (resolveOne mt5 i)) k,
        mem_keys_dictInsert]
      simp only [List.mem_cons]
      tauto

/-- The reconciliation fold keeps its keys duplicate-free. -/
theorem nodup_keys_mapping_fold (mt5 : List String) :
    ∀ (sqx : List String) (acc : List (String × Option String)),
      (acc.map Prod.fst).Nodup →
      ((sqx.foldl
          (fun m ind => dictInsert m ind (resolveOne mt5 ind)) acc).map
            Prod.fst).Nodup
  | [], _, h => h
  | i :: rest, acc, h => by
      rw [List.foldl_cons]
      exact nodup_keys_mapping_fold mt5 rest _ (nodup_keys_dictInsert _ _ _ h)

/-- Value of the reconciliation fold at a key: every occurrence of `ind`
inserts the same `resolveOne` value, so membership decides the result. -/
theorem dictGet_mapping_fold (mt5 : List String) :
    ∀ (sqx : List String) (acc : List (String × Option String)) (ind : String),
      dictGet (sqx.foldl
          (fun m i => dictInsert m i (resolveOne mt5 i)) acc) ind =
        if ind ∈ sqx then some (resolveOne mt5 ind) else dictGet acc ind
  | [], acc, ind => by simp
  | i :: rest, acc, ind => by
      rw [List.foldl_cons, dictGet_mapping_fold mt5 rest _ ind]
      by_cases hmem : ind ∈ rest
      · simp [hmem, List.mem_cons]
      · rw [if_neg hmem, dictGet_dictInsert]
        by_cases hi : ind = i
        · subst hi; simp [List.mem_cons, hmem]
        · simp [hi, hmem, List.mem_cons]

theorem dictGet_mapping_indicators (sqx mt5 : List String) (ind : String) :
    dictGet (mapping_indicators sqx mt5) ind =
      if ind ∈ sqx then some (resolveOne mt5 ind) else none :=
  (dictGet_mapping_fold mt5 sqx [] ind).trans
    (by by_cases h : ind ∈ sqx <;> simp [h, dictGet])

/-- C5 counterexample: with a duplicated external name the mapping dict
collapses the duplicates, so its entry count is NOT the length of the
input list. -/
theorem c5_counterexample :
    (mapping_indicators ["ADX", "ADX"] []).length = 1 ∧
    (["ADX", "ADX"] : List String).length = 2 := by
  exact ⟨by decide, by decide⟩

/-- C5 amended: reconciliation is total per distinct external name —
every name of the input list gets exactly one entry (possibly the `none`
absence marker), the table has one entry per distinct name, and for
duplicate-free input (as produced by the catalog reader, which sorts and
de-duplicates) the entry count equals the input length. -/
theorem c5_amended_total_per_distinct_name (sqx mt5 : List String) :
    (∀ ind ∈ sqx, (dictGet (mapping_indicators sqx mt5) ind).isSome) ∧
    (mapping_indicators sqx mt5).length = sqx.dedup.length ∧
    (sqx.Nodup → (mapping_indicators sqx mt5).length = sqx.length) := by
  have hmem : ∀ k, k ∈ (mapping_indicators sqx mt5).map Prod.fst ↔ k ∈ sqx := by
    intro k
    rw [mapping_indicators, mem_keys_mapping_fold]
    simp
  have hnd : ((mapping_indicators sqx mt5).map Prod.fst).Nodup := by
    rw [mapping_indicators]
    exact nodup_keys_mapping_fold mt5 sqx [] (by simp)
  have hperm : List.Perm ((mapping_indicators sqx mt5).map Prod.fst) sqx.dedup := by
    rw [List.perm_ext_iff_of_nodup hnd sqx.nodup_dedup]
    intro a
    rw [hmem, List.mem_dedup]
  have hlen : (mapping_indicators sqx mt5).length = sqx.dedup.length := by
    rw [← List.length_map (mapping_indicators sqx mt5) Prod.fst]
    exact hperm.length_eq
  refine ⟨?_, hlen, ?_⟩
  · intro ind hind
    rw [dictGet_isSome_iff_mem_keys, hmem]
    exact hind
  · intro hnodup
    rw [hlen, List.dedup_eq_self.mpr hnodup]

/-- Witness for the amended C5: two distinct external names, one
resolvable and one not, both receive an entry and the table has two
entries. -/
theorem c5_amended_total_per_distinct_name_witness :
    (dictGet (mapping_indicators ["ADX", "ATR"] ["SqAdx"]) "ATR").isSome ∧
    (mapping_indicators ["ADX", "ATR"] ["SqAdx"]).length = 2 :=
  ⟨(c5_amended_total_per_distinct_name ["ADX", "ATR"] ["SqAdx"]).1 "ATR"
      (by decide),
   (c5_amended_total_per_distinct_name ["ADX", "ATR"] ["SqAdx"]).2.2
      (by decide)⟩

/-- C3 counterexample: for external `"SMA"` against internals
`["SqSma", "Custom Moving Average"]`, the exact match succeeds (first
conjunct: the normalized stripped key of `"SqSma"` equals the normalized
external key), yet the stored value is the alias-table result
`"Custom Moving Average"` (second conjunct): the alias strategy runs even
after a successful exact match and overwrites its result, so the first
succeeding strategy does not win. -/
theorem c3_counterexample :
    dictGet (normToMt5 ["SqSma", "Custom Moving Average"]) (normalize "SMA") =
      some "SqSma" ∧
    dictGet (mapping_indicators ["SMA"] ["SqSma", "Custom Moving Average"])
      "SMA" = some (some "Custom Moving Average") :=
  ⟨by decide, by decide⟩

/-- C3 amended: the strategies run in the order exact, alias, fuzzy, but
the alias lookup is not gated on the exact match having failed — whenever
the normalized external key is an alias-table key, the alias result
replaces the exact result.  For every external name whose normalized key
is NOT in the alias table and matches a normalized (prefix-stripped)
internal key exactly (with a nonempty stored original), the exact match's
result is the stored value and the later strategies cannot change it. -/
theorem c3_amended_exact_final_when_unaliased (sqx mt5 : List String)
    (ind v : String) (hmem : ind ∈ sqx)
    (halias : dictGet MANUAL (normalize ind) = none)
    (hexact : dictGet (normToMt5 mt5) (normalize ind) = some v)
    (hne : v ≠ "") :
    dictGet (mapping_indicators sqx mt5) ind = some (some v) := by
  have hvd : v.data ≠ [] := by
    intro hd
    apply hne
    cases v with
    | mk l => cases hd; rfl
  have hf : isFalsy (some v) = false := by
    unfold isFalsy
    cases hv : v.data with
    | nil => exact absurd hv hvd
    | cons c cs => simp [hv]
  have hres : resolveOne mt5 ind = some v := by
    simp [resolveOne, halias, hexact, hf]
  rw [dictGet_mapping_indicators, if_pos hmem, hres]

/-- Witness for the amended C3: `"ADX"` is not an alias key and exact-
matches the stripped key of `"SqAdx"`; the stored value is `"SqAdx"`. -/
theorem c3_amended_exact_final_when_unaliased_witness :
    dictGet (mapping_indicators ["ADX"] ["SqAdx"]) "ADX" =
      some (some "SqAdx") :=
  c3_amended_exact_final_when_unaliased ["ADX"] ["SqAdx"] "ADX" "SqAdx"
    (by decide) (by decide) (by decide) (by decide)

/-- C4 (code bug): at the spec's scenario the code yields
`WilliamsPR ↦ None`, not `SqWpr` (first conjunct).  The cause: the alias
table normalizes its values without the internal `Sq`-strip — the alias
value for `williamspr` is `"sqwpr"` (second conjunct) — while the
internal key index is built from Sq-stripped names (keys `adx`, `wpr`),
so the alias lookup cannot hit (third conjunct); the fuzzy passes then
fail (similarity of `wpr` is 6/13 < 0.60).  The `RAW_MANUAL` entry
`"WilliamsPR": "SqWpr"` documents the intended resolution, so the claim
matches the intent and the code is the slip. -/
theorem c4_scenario_eval :
    mapping_indicators ["ADX", "WilliamsPR"] ["SqAdx", "SqWpr"] =
      [("ADX", some "SqAdx"), ("WilliamsPR", none)] ∧
    dictGet MANUAL (normalize "WilliamsPR") = some "sqwpr" ∧
    dictGet (normToMt5 ["SqAdx", "SqWpr"]) "sqwpr" = none :=
  ⟨by decide, by decide, by decide⟩

/-- Every hit in the normalized-key index returns one of the original
internal names verbatim. -/
theorem normToMt5_value_mem (mt5 : List String) (k v : String)
    (h : dictGet (normToMt5 mt5) k = some v) : v ∈ mt5 := by
  rcases dictGet_foldl_insert_mem (mt5Tuples mt5) [] k v h with hm | hm
  · simp only [mt5Tuples, List.mem_map] at hm
    obtain ⟨ln, hln, heq⟩ := hm
    cases heq
    exact hln
  · simp [dictGet] at hm

/-- Every strategy of `resolveOne` reads its result from the
normalized-key index, so a resolved value is an original internal name. -/
theorem resolveOne_mem (mt5 : List String) (ind v : String)
    (h : resolveOne mt5 ind = some v) : v ∈ mt5 := by
  simp only [resolveOne] at h
  split at h
  all_goals try split at h
  all_goals try split at h
  all_goals try split at h
  all_goals exact normToMt5_value_mem mt5 _ v h

/-- C10: every resolved value of the mapping table is an element of the
internal-names input list verbatim (values are always read out of
`norm_to_mt5`, whose values are the original unstripped names); the only
other possible value is the `None` absence marker. -/
theorem c10_resolved_values_verbatim (sqx mt5 : List String) (ind v : String)
    (h : dictGet (mapping_indicators sqx mt5) ind = some (some v)) :
    v ∈ mt5 := by
  rw [dictGet_mapping_indicators] at h
  by_cases hmem : ind ∈ sqx
  · rw [if_pos hmem] at h
    exact resolveOne_mem mt5 ind v (Option.some.inj h)
  · rw [if_neg hmem] at h
    cases h

/-- Witness for C10 at the resolved entry `ADX ↦ SqAdx`. -/
theorem c10_resolved_values_verbatim_witness :
    "SqAdx" ∈ ["SqAdx", "Momentum"] :=
  c10_resolved_values_verbatim ["ADX"] ["SqAdx", "Momentum"] "ADX" "SqAdx"
    (by decide)

theorem dictGet_rangesStep_ne (roundD : ℚ → ℚ) (datos : List CalRecord)
    (acc : List (String × (ℚ × ℚ × ℚ))) (p : String × Option String)
    (ext : String) (h : p.1 ≠ ext) :
    dictGet (rangesStep roundD datos acc p) ext = dictGet acc ext := by
  cases p2 : p.2 with
  | none => simp [rangesStep, p2]
  | some internal =>
      by_cases hemp : (datos.filter (fun r => r.indicador == internal)).isEmpty = true
      · simp [rangesStep, p2, hemp]
      · simp [rangesStep, p2, hemp, dictGet_dictInsert, Ne.symm h]

theorem dictGet_ranges_fold_notmem (roundD : ℚ → ℚ) (datos : List CalRecord) :
    ∀ (mapping : List (String × Option String))
      (acc : List (String × (ℚ × ℚ × ℚ))) (ext : String),
      ext ∉ mapping.map Prod.fst →
      dictGet (mapping.foldl (rangesStep roundD datos) acc) ext = dictGet acc ext
  | [], _, _, _ => rfl
  | p :: rest, acc, ext, h => by
      have h1 : ext ∉ rest.map Prod.fst := fun hh => h (by simp [hh])
      have h2 : p.1 ≠ ext := fun hh => h (by simp [List.map_cons, ← hh])
      rw [List.foldl_cons,
        dictGet_ranges_fold_notmem roundD datos rest _ ext h1,
        dictGet_rangesStep_ne roundD datos acc p ext h2]

/-- Characterization of one timeframe's fold: under duplicate-free
mapping keys, the entry of `ext` is decided by the mapping's value for
`ext` and the (non)emptiness of the record group of its internal code. -/
theorem dictGet_ranges_fold (roundD : ℚ → ℚ) (datos : List CalRecord) :
    ∀ (mapping : List (String × Option String))
      (acc : List (String × (ℚ × ℚ × ℚ))) (ext : String),
      (mapping.map Prod.fst).Nodup →
      dictGet (mapping.foldl (rangesStep roundD datos) acc) ext =
        match dictGet mapping ext with
        | none => dictGet acc ext
        | some none => dictGet acc ext
        | some (some internal) =>
            if (datos.filter (fun r => r.indicador == internal)).isEmpty
            then dictGet acc ext
            else some
              (roundD (listMin ((datos.filter
                (fun r => r.indicador == internal)).map CalRecord.minimo)),
               roundD (listMax ((datos.filter
                (fun r => r.indicador == internal)).map CalRecord.maximo)),
               roundD (listMin ((datos.filter
                (fun r => r.indicador == internal)).map CalRecord.paso)))
  | [], acc, ext, _ => by simp [dictGet]
  | p :: rest, acc, ext, hnd => by
      have hnd2 := hnd
      rw [List.map_cons, List.nodup_cons] at hnd2
      rw [List.foldl_cons]
      by_cases hx : p.1 = ext
      · subst hx
        rw [dictGet_ranges_fold_notmem roundD datos rest _ p.1 hnd2.1]
        have hget : dictGet (p :: rest) p.1 = some p.2 := by
          rw [dictGet, if_pos rfl]
        rw [hget]
        cases p2 : p.2 with
        | none => simp [rangesStep, p2]
        | some internal =>
            by_cases hemp :
                (datos.filter (fun r => r.indicador == internal)).isEmpty = true
            · simp [rangesStep, p2, hemp]
            · simp [rangesStep, p2, hemp, dictGet_dictInsert]
      · rw [dictGet_ranges_fold roundD datos rest
            (rangesStep roundD datos acc p) ext hnd2.2]
        have hget : dictGet (p :: rest) ext = dictGet rest ext := by
          rw [dictGet, if_neg hx]
        rw [hget]
        cases hrest : dictGet rest ext with
        | none => simp [dictGet_rangesStep_ne roundD datos acc p ext hx]
        | some io =>
            cases io with
            | none => simp [dictGet_rangesStep_ne roundD datos acc p ext hx]
            | some internal =>
                by_cases hemp :
                    (datos.filter
                      (fun r => r.indicador == internal)).isEmpty = true
                · simp [hemp, dictGet_rangesStep_ne roundD datos acc p ext hx]
                · simp [hemp]

/-- C7: in one timeframe's table an external name `ext` has an entry iff
the mapping resolves it to an internal code with at least one record in
that timeframe, in which case the entry is (min of minimums, max of
maximums, min of steps) of the group, each rounded; names that are
unresolved (`none`), absent from the mapping, or whose internal code has
no records this timeframe, are silently absent from the table. -/
theorem c7_range_table_per_timeframe (roundD : ℚ → ℚ)
    (mapping : List (String × Option String)) (datos : List CalRecord)
    (hnd : (mapping.map Prod.fst).Nodup) (ext : String) :
    (dictGet mapping ext = none →
      dictGet (buildRangesTF roundD mapping datos) ext = none) ∧
    (dictGet mapping ext = some none →
      dictGet (buildRangesTF roundD mapping datos) ext = none) ∧
    (∀ internal, dictGet mapping ext = some (some internal) →
      (datos.filter (fun r => r.indicador == internal) = [] →
        dictGet (buildRangesTF roundD mapping datos) ext = none) ∧
      (datos.filter (fun r => r.indicador == internal) ≠ [] →
        dictGet (buildRangesTF roundD mapping datos) ext =
          some
            (roundD (listMin ((datos.filter
              (fun r => r.indicador == internal)).map CalRecord.minimo)),
             roundD (listMax ((datos.filter
              (fun r => r.indicador == internal)).map CalRecord.maximo)),
             roundD (listMin ((datos.filter
              (fun r => r.indicador == internal)).map CalRecord.paso))))) := by
  have hchar := dictGet_ranges_fold roundD datos mapping [] ext hnd
  rw [buildRangesTF]
  refine ⟨?_, ?_, ?_⟩
  · intro h
    rw [hchar, h]
    simp [dictGet]
  · intro h
    rw [hchar, h]
    simp [dictGet]
  · intro internal h
    constructor
    · intro hemp
      rw [hchar, h]
      simp [hemp, dictGet]
    · intro hne
      rw [hchar, h]
      have : (datos.filter (fun r => r.indicador == internal)).isEmpty = false := by
        cases hf : datos.filter (fun r => r.indicador == internal) with
        | nil => exact absurd hf hne
        | cons a l => simp [hf]
      simp [this]

/-- Witness for C7: two records for `SqAdx` aggregate to
(min 2 1, max 30 50, min 1 2); the unresolved name `ATR` is absent. -/
theorem c7_range_table_per_timeframe_witness :
    dictGet (buildRangesTF (fun q => q)
        [("ADX", some "SqAdx"), ("ATR", none)]
        [CalRecord.mk "SqAdx" 2 30 1, CalRecord.mk "SqAdx" 1 50 2]) "ADX" =
      some (1, 50, 1) ∧
    dictGet (buildRangesTF (fun q => q)
        [("ADX", some "SqAdx"), ("ATR", none)]
        [CalRecord.mk "SqAdx" 2 30 1, CalRecord.mk "SqAdx" 1 50 2]) "ATR" =
      none :=
  ⟨(((c7_range_table_per_timeframe (fun q => q)
      [("ADX", some "SqAdx"), ("ATR", none)]
      [CalRecord.mk "SqAdx" 2 30 1, CalRecord.mk "SqAdx" 1 50 2]
      (by decide) "ADX").2.2 "SqAdx" (by decide)).2 (by decide)).trans
      (by decide),
   (c7_range_table_per_timeframe (fun q => q)
      [("ADX", some "SqAdx"), ("ATR", none)]
      [CalRecord.mk "SqAdx" 2 30 1, CalRecord.mk "SqAdx" 1 50 2]
      (by decide) "ATR").2.1 (by decide)⟩

theorem mem_insertDesc (p : Scored) :
    ∀ (l : List Scored) (a : Scored), a ∈ insertDesc p l ↔ a = p ∨ a ∈ l
  | [], a => by simp [insertDesc]
  | q :: qs, a => by
      cases hb : pairGt p q with
      | true => simp [insertDesc, hb]
      | false =>
          simp only [insertDesc, hb, Bool.false_eq_true, if_false,
            List.mem_cons, mem_insertDesc p qs a]
          tauto

theorem mem_sortDesc (l : List Scored) (a : Scored) :
    a ∈ sortDesc l ↔ a ∈ l := by
  induction l with
  | nil => simp [sortDesc]
  | cons q qs ih =>
      simp only [sortDesc, List.foldr_cons] at ih ⊢
      rw [mem_insertDesc, ih, List.mem_cons]

theorem length_get_close_matches_le (word : String) (poss : List String)
    (n cn cd : Nat) : (get_close_matches word poss n cn cd).length ≤ n := by
  simp only [get_close_matches, List.length_map, List.length_take]
  omega

theorem mem_get_close_matches (word : String) (poss : List String)
    (n cn cd : Nat) (x : String)
    (h : x ∈ get_close_matches word poss n cn cd) :
    x ∈ poss ∧ ratioGe x word cn cd = true := by
  simp only [get_close_matches] at h
  obtain ⟨s, hs, hstr⟩ := List.mem_map.mp h
  have hs2 : s ∈ sortDesc _ := List.mem_of_mem_take hs
  have hs3 := (mem_sortDesc _ s).mp hs2
  obtain ⟨y, hy, hmk⟩ := List.mem_map.mp hs3
  obtain ⟨hy1, hy2⟩ := List.mem_filter.mp hy
  cases hmk
  cases hstr
  exact ⟨hy1, hy2⟩

/-- Exact-rational reading of the cutoff test: when the denominator is
positive (any pair of strings that is not empty-by-empty),
`ratio() >= cnum/cden` in the exact-fraction sense. -/
theorem ratioGe_le_simScore (x word : String) (cn cd : Nat) (hcd : 0 < cd)
    (hlen : x.data.length + word.data.length ≠ 0)
    (h : ratioGe x word cn cd = true) :
    (cn : ℚ) / (cd : ℚ) ≤ simScore x word := by
  have hnat : cn * (x.data.length + word.data.length) ≤
      2 * matchSize x word * cd := of_decide_eq_true h
  have hq : (0 : ℚ) < ((x.data.length + word.data.length : Nat) : ℚ) := by
    exact_mod_cast Nat.pos_of_ne_zero hlen
  rw [simScore, div_le_div_iff₀ (by exact_mod_cast hcd) hq]
  push_cast
  exact_mod_cast hnat

/-- C9: pass 1 keeps at most 4 candidates, all drawn from the internal
keys and all with similarity at least 30/100 (the source's `>= 0.30`);
pass 2 keeps at most 1 candidate, with similarity at least 60/100
(`>= 0.60`); and every pass-2 candidate is a pass-1 candidate —
monotonic narrowing, for every input. -/
theorem c9_fuzzy_two_pass (word : String) (keys : List String) :
    (get_close_matches word keys 4 30 100).length ≤ 4 ∧
    (∀ x ∈ get_close_matches word keys 4 30 100,
      x ∈ keys ∧ ratioGe x word 30 100 = true ∧
        (x.data.length + word.data.length ≠ 0 →
          (30 : ℚ) / 100 ≤ simScore x word)) ∧
    (get_close_matches word
        (get_close_matches word keys 4 30 100) 1 60 100).length ≤ 1 ∧
    (∀ x ∈ get_close_matches word
        (get_close_matches word keys 4 30 100) 1 60 100,
      x ∈ get_close_matches word keys 4 30 100 ∧
        ratioGe x word 60 100 = true ∧
        (x.data.length + word.data.length ≠ 0 →
          (60 : ℚ) / 100 ≤ simScore x word)) := by
  refine ⟨length_get_close_matches_le word keys 4 30 100, ?_,
    length_get_close_matches_le word _ 1 60 100, ?_⟩
  · intro x hx
    obtain ⟨h1, h2⟩ := mem_get_close_matches word keys 4 30 100 x hx
    exact ⟨h1, h2, fun hlen =>
      ratioGe_le_simScore x word 30 100 (by omega) hlen h2⟩
  · intro x hx
    obtain ⟨h1, h2⟩ := mem_get_close_matches word _ 1 60 100 x hx
    exact ⟨h1, h2, fun hlen =>
      ratioGe_le_simScore x word 60 100 (by omega) hlen h2⟩

/-- Witness for C9: the pass-1 candidate `"wpr"` for word
`"williamspr"` is an internal key passing the 0.30 cutoff, and the
first pass keeps at most 4 candidates. -/
theorem c9_fuzzy_two_pass_witness :
    (get_close_matches "williamspr" ["adx", "wpr"] 4 30 100).length ≤ 4 ∧
    ("wpr" ∈ ["adx", "wpr"] ∧ ratioGe "wpr" "williamspr" 30 100 = true ∧
      ("wpr".data.length + "williamspr".data.length ≠ 0 →
        (30 : ℚ) / 100 ≤ simScore "wpr" "williamspr")) :=
  ⟨(c9_fuzzy_two_pass "williamspr" ["adx", "wpr"]).1,
   (c9_fuzzy_two_pass "williamspr" ["adx", "wpr"]).2.1 "wpr" (by decide)⟩

end StrategyQ
